import Mathlib

/-!
Verification development for the efficient-geopandas-workshop notebook
(GeoPython2023.ipynb).  The notebook is a sequence of cells that call an
external geospatial stack (geopandas, shapely, pandas, scipy).  We give a
shallow embedding of the data the cells manipulate (points with rational
coordinates, geometry series, index relations) and of each pair of
"old" and "new" constructions the notebook contrasts, and prove or refute
the claims about them.  External library calls are modelled by their
documented input-output behaviour; everything the notebook itself authors
(the mround rounding helper, the cell pipelines, the order of calls) is
translated directly from the notebook cells.
-/

namespace Workshop

/-- A point geometry with exact rational coordinates, the model of a
shapely Point produced by the notebook cells. -/
structure Pt where
  x : ℚ
  y : ℚ
deriving DecidableEq

/-- A GeoSeries: an ordered column of point geometries together with an
optional EPSG code for its coordinate reference system. -/
structure GeoSeries where
  geoms : List Pt
  crs : Option ℕ
deriving DecidableEq

/-! ### C4: point construction, old versus new -/

/-- Model of the scalar shapely Point constructor applied to a coordinate
pair, as in Point((x, y)). -/
def point_of_pair (c : ℚ × ℚ) : Pt :=
  Pt.mk c.1 c.2

/-- Old construction of cell 8: geopandas.GeoSeries(map(Point, zip(longitude,
latitude)), crs=4326).  The zip pairs the coordinate arrays, map applies the
scalar Point constructor. -/
def geoseries_map_point (longitude latitude : List ℚ) : GeoSeries :=
  GeoSeries.mk ((longitude.zip latitude).map point_of_pair) (some 4326)

/-- Old construction of cell 10: the list comprehension
geopandas.GeoSeries([Point(coords) for coords in zip(longitude, latitude)],
crs=4326). -/
def geoseries_listcomp (longitude latitude : List ℚ) : GeoSeries :=
  GeoSeries.mk ((longitude.zip latitude).map (fun coords => point_of_pair coords))
    (some 4326)

/-- New construction of cell 18: geopandas.points_from_xy(longitude, latitude,
crs=4326).  Modelled from the documented behaviour of the external call: the
vectorized constructor pairs the two equal-length coordinate arrays
pointwise. -/
def points_from_xy (longitude latitude : List ℚ) : List Pt :=
  List.zipWith Pt.mk longitude latitude

/-- New construction of cell 16: geopandas.GeoSeries.from_xy(longitude,
latitude, crs=4326), which wraps points_from_xy in a GeoSeries carrying the
requested CRS. -/
def from_xy (longitude latitude : List ℚ) : GeoSeries :=
  GeoSeries.mk (points_from_xy longitude latitude) (some 4326)

/-- C4: for equal-length coordinate arrays, the old map-based and
list-comprehension constructions produce the same ordered point sequence and
the same CRS (EPSG 4326) as the new from_xy and points_from_xy
constructions. -/
theorem c4_point_construction_equivalence (longitude latitude : List ℚ)
    (h : longitude.length = latitude.length) :
    geoseries_map_point longitude latitude = from_xy longitude latitude ∧
    geoseries_listcomp longitude latitude = from_xy longitude latitude ∧
    (from_xy longitude latitude).geoms = points_from_xy longitude latitude ∧
    (geoseries_map_point longitude latitude).crs = some 4326 ∧
    (from_xy longitude latitude).crs = some 4326 := by
  refine ⟨?_, ?_, rfl, rfl, rfl⟩ <;>
  · simp only [geoseries_map_point, geoseries_listcomp, from_xy, points_from_xy,
      List.zip, List.map_zipWith, point_of_pair]

/-- Concrete instantiation of the C4 equivalence on a two-point column. -/
theorem c4_point_construction_equivalence_witness :
    ([(1 : ℚ), 2].length = [(3 : ℚ), 4].length) ∧
    (geoseries_map_point [(1 : ℚ), 2] [(3 : ℚ), 4] =
      from_xy [(1 : ℚ), 2] [(3 : ℚ), 4]) :=
  ⟨by decide, (c4_point_construction_equivalence [(1 : ℚ), 2] [(3 : ℚ), 4]
    (by decide)).1⟩

/-! ### C5: geometry from WKT text and WKB bytes, old versus new -/

/-- Numeric value of a decimal digit character. -/
def digitVal (c : Char) : Option ℕ :=
  if '0' ≤ c ∧ c ≤ '9' then some (c.toNat - Char.toNat '0') else none

/-- Accumulating left-to-right decimal numeral reader. -/
def parseDigitsAux (acc : ℕ) : List Char → Option ℕ
  | [] => some acc
  | c :: rest =>
    match digitVal c with
    | some d => parseDigitsAux (acc * 10 + d) rest
    | none => none

/-- Reads a non-empty all-digit numeral. -/
def parseDigits (cs : List Char) : Option ℕ :=
  match cs with
  | [] => none
  | _ :: _ => parseDigitsAux 0 cs

/-- Splits a character list at the first dot, if any. -/
def splitAtDot : List Char → List Char × Option (List Char)
  | [] => ([], none)
  | c :: cs =>
    if c = '.' then ([], some cs)
    else
      let r := splitAtDot cs
      (c :: r.1, r.2)

/-- Reads an unsigned decimal numeral, with an optional fractional part,
as an exact rational. -/
def parseUnsignedDec (cs : List Char) : Option ℚ :=
  match splitAtDot cs with
  | (w, none) => (parseDigits w).map (fun n => (n : ℚ))
  | (w, some f) =>
    match parseDigits w, parseDigits f with
    | some n, some m => some ((n : ℚ) + (m : ℚ) / ((10 : ℚ) ^ f.length))
    | _, _ => none

/-- Reads a decimal numeral with an optional leading minus sign. -/
def parseDec (cs : List Char) : Option ℚ :=
  match cs with
  | '-' :: rest => (parseUnsignedDec rest).map (fun q => -q)
  | _ => parseUnsignedDec cs

/-- Drops an expected leading character sequence, failing if absent. -/
def dropExpected : List Char → List Char → Option (List Char)
  | [], s => some s
  | _ :: _, [] => none
  | p :: ps, c :: cs => if c = p then dropExpected ps cs else none

/-- Splits a character list at the first space. -/
def splitAtSpace : List Char → List Char × List Char
  | [] => ([], [])
  | c :: cs =>
    if c = ' ' then ([], cs)
    else
      let r := splitAtSpace cs
      (c :: r.1, r.2)

/-- Model of the external WKT reader on point geometries, shared by the old
elementwise shapely.wkt.loads path of cell 23 and the new vectorized
GeoSeries.from_wkt path of cell 25: both feed each string to the same GEOS
text reader.  Accepts the form POINT (x y). -/
def wkt_loads (s : String) : Option Pt :=
  match dropExpected (String.toList ("POINT (")) s.toList with
  | none => none
  | some rest =>
    match rest.reverse with
    | [] => none
    | c :: revBody =>
      if c = ')' then
        let w := splitAtSpace revBody.reverse
        match parseDec w.1, parseDec w.2 with
        | some x, some y => some (Pt.mk x y)
        | _, _ => none
      else none

/-- Model of a vectorized array constructor: the C loop walks the input
once, producing one output element per input element, accumulated and then
emitted in input order. -/
def vectorized_apply (f : α → β) (xs : List α) : List β :=
  (xs.foldl (fun acc a => f a :: acc) []).reverse

lemma vectorized_apply_foldl (f : α → β) (xs : List α) (acc : List β) :
    xs.foldl (fun acc a => f a :: acc) acc = (xs.map f).reverse ++ acc := by
  induction xs generalizing acc with
  | nil => simp
  | cons a l ih => simp [ih]

lemma vectorized_apply_eq_map (f : α → β) (xs : List α) :
    vectorized_apply f xs = xs.map f := by
  simp [vectorized_apply, vectorized_apply_foldl]

/-- A geometry column that can hold missing entries, with its CRS. -/
structure GeoSeriesOpt where
  geoms : List (Option Pt)
  crs : Option ℕ
deriving DecidableEq

/-- New construction of cell 25: geopandas.GeoSeries.from_wkt(col, crs=4326),
the vectorized WKT reader over the whole column. -/
def GeoSeries.from_wkt (col : List String) (c : ℕ) : GeoSeriesOpt :=
  GeoSeriesOpt.mk (vectorized_apply wkt_loads col) (some c)

/-- Old construction of cell 23: df.geometry.apply(wkt.loads), the scalar WKT
reader applied elementwise. -/
def wkt_loads_elementwise (col : List String) : List (Option Pt) :=
  col.map wkt_loads

/-- New construction of cell 32: geopandas.GeoSeries.from_wkb(col, crs=4326).
The binary reader itself is external C code taken as a parameter; the
construction runs it vectorized over the column. -/
def GeoSeries.from_wkb (wkb_loads : List ℕ → Option Pt) (col : List (List ℕ))
    (c : ℕ) : GeoSeriesOpt :=
  GeoSeriesOpt.mk (vectorized_apply wkb_loads col) (some c)

/-- Old construction of cell 30: df.geometry.apply(wkb.loads), the same
binary reader applied elementwise. -/
def wkb_loads_elementwise (wkb_loads : List ℕ → Option Pt)
    (col : List (List ℕ)) : List (Option Pt) :=
  col.map wkb_loads

/-- C5: on a column of valid WKT strings the vectorized from_wkt yields the
same geometries in the same order as elementwise wkt.loads, and likewise
from_wkb against elementwise wkb.loads on valid WKB columns; both carry the
requested CRS 4326. -/
theorem c5_wkt_wkb_parsing_equivalence (col : List String)
    (wkb_loads : List ℕ → Option Pt) (colb : List (List ℕ))
    (hv : ∀ s ∈ col, (wkt_loads s).isSome)
    (hb : ∀ b ∈ colb, (wkb_loads b).isSome) :
    (GeoSeries.from_wkt col 4326).geoms = wkt_loads_elementwise col ∧
    (GeoSeries.from_wkb wkb_loads colb 4326).geoms =
      wkb_loads_elementwise wkb_loads colb ∧
    (GeoSeries.from_wkt col 4326).crs = some 4326 ∧
    (GeoSeries.from_wkb wkb_loads colb 4326).crs = some 4326 := by
  refine ⟨?_, ?_, rfl, rfl⟩ <;>
  · simp [GeoSeries.from_wkt, GeoSeries.from_wkb, wkt_loads_elementwise,
      wkb_loads_elementwise, vectorized_apply_eq_map]

/-- Concrete instantiation of the C5 equivalence on a valid two-string WKT
column and a one-row WKB column. -/
theorem c5_wkt_wkb_parsing_equivalence_witness :
    (∀ s ∈ [("POINT (1 2)" : String), "POINT (-1.5 0.25)"],
      (wkt_loads s).isSome) ∧
    (GeoSeries.from_wkt [("POINT (1 2)" : String), "POINT (-1.5 0.25)"]
        4326).geoms =
      wkt_loads_elementwise [("POINT (1 2)" : String), "POINT (-1.5 0.25)"] :=
  ⟨by decide, (c5_wkt_wkb_parsing_equivalence
    [("POINT (1 2)" : String), "POINT (-1.5 0.25)"]
    (fun _ => some (Pt.mk 0 0)) [[0, 1]]
    (by decide) (by simp)).1⟩

/-! ### C2: distance to the nearest food establishment, four ways -/

/-- Squared Euclidean distance between two points, exact in the
rationals. -/
def sqDist (a b : Pt) : ℚ :=
  (a.x - b.x) ^ 2 + (a.y - b.y) ^ 2

/-- Distance between two points as computed by the external geometry engine:
the square root of the squared distance.  The square-root evaluator is kept
as a parameter dsqrt so the development stays exact; every code path below
feeds it the same squared distances, so no property of dsqrt is assumed. -/
def dist_fn (dsqrt : ℚ → ℚ) (g f : Pt) : ℚ :=
  dsqrt (sqDist g f)

/-- Minimum of a numeric column, as Series.min: none on an empty column. -/
def minQ : List ℚ → Option ℚ
  | [] => none
  | a :: l =>
    match minQ l with
    | none => some a
    | some b => some (min a b)

/-- Old construction of cell 107: food.distance(geom).min(), the brute-force
minimum over all pairwise distances from one home to every food
establishment. -/
def brute_force_min_distance (dsqrt : ℚ → ℚ) (g : Pt) (food : List Pt) :
    Option ℚ :=
  minQ (food.map (dist_fn dsqrt g))

/-- Model of shapely.ops.nearest_points(g, union)[1] in cell 110: the
external engine walks the multipoint union of the food geometries and
returns a constituent point at minimal distance from g (the earliest such
point). -/
def nearest_points_in (dsqrt : ℚ → ℚ) (g : Pt) : List Pt → Option Pt
  | [] => none
  | f :: fs =>
    match nearest_points_in dsqrt g fs with
    | none => some f
    | some b => if dist_fn dsqrt g f ≤ dist_fn dsqrt g b then some f else some b

/-- Old construction of cell 110: the notebook-authored nearest_dist helper,
which finds the nearest point of the union and then measures the distance to
it. -/
def nearest_dist (dsqrt : ℚ → ℚ) (g : Pt) (food : List Pt) : Option ℚ :=
  (nearest_points_in dsqrt g food).map (dist_fn dsqrt g)

/-- Indices of all food rows at minimal distance from g, in ascending order:
the matches an R-tree nearest query returns when all matches are
requested. -/
def all_nearest_indices (dsqrt : ℚ → ℚ) (g : Pt) (food : List Pt) : List ℕ :=
  match minQ (food.map (dist_fn dsqrt g)) with
  | none => []
  | some m =>
    (List.range food.length).filter
      (fun j => decide (dist_fn dsqrt g (food.getD j (Pt.mk 0 0)) = m))

/-- New construction of cell 112: the distance_col values that
homes.sjoin_nearest(food, how=left, distance_col=distance) records for one
home: one row per nearest match, each carrying the distance to the matched
food geometry. -/
def sjoin_nearest_distances (dsqrt : ℚ → ℚ) (g : Pt) (food : List Pt) :
    List ℚ :=
  (all_nearest_indices dsqrt g food).map
    (fun j => dist_fn dsqrt g (food.getD j (Pt.mk 0 0)))

/-- New construction of cell 114: shapely.STRtree(food).query_nearest(g,
all_matches=False, return_distance=True): a single nearest match and the
distance to it. -/
def query_nearest_distance (dsqrt : ℚ → ℚ) (g : Pt) (food : List Pt) :
    Option ℚ :=
  ((all_nearest_indices dsqrt g food).head?).map
    (fun j => dist_fn dsqrt g (food.getD j (Pt.mk 0 0)))

lemma minQ_eq_none_iff (l : List ℚ) : minQ l = none ↔ l = [] := by
  cases l with
  | nil => simp [minQ]
  | cons a t =>
    simp only [minQ]
    cases minQ t <;> simp

lemma minQ_mem {l : List ℚ} {m : ℚ} (h : minQ l = some m) : m ∈ l := by
  induction l with
  | nil => simp [minQ] at h
  | cons a t ih =>
    simp only [minQ] at h
    cases ht : minQ t with
    | none => rw [ht] at h; simp at h; simp [h]
    | some b =>
      rw [ht] at h
      simp at h
      have hm2 : m = a ∨ m = b := by
        rcases min_choice a b with hc | hc
        · left; rw [← h, hc]
        · right; rw [← h, hc]
      rcases hm2 with rfl | rfl
      · simp
      · exact List.mem_cons_of_mem a (ih ht)

lemma nearest_points_in_dist (dsqrt : ℚ → ℚ) (g : Pt) (food : List Pt) :
    (nearest_points_in dsqrt g food).map (dist_fn dsqrt g) =
      minQ (food.map (dist_fn dsqrt g)) := by
  induction food with
  | nil => rfl
  | cons f fs ih =>
    simp only [nearest_points_in, List.map, minQ]
    cases hn : nearest_points_in dsqrt g fs with
    | none =>
      rw [hn] at ih
      simp at ih
      simp [← ih]
    | some b =>
      rw [hn] at ih
      simp at ih
      rw [← ih]
      by_cases hle : dist_fn dsqrt g f ≤ dist_fn dsqrt g b
      · simp [hle, min_eq_left hle]
      · simp [hle, min_eq_right (le_of_not_le hle)]

lemma mem_map_getD {d : Pt → ℚ} {food : List Pt} {m : ℚ}
    (h : m ∈ food.map d) :
    ∃ j, j < food.length ∧ d (food.getD j (Pt.mk 0 0)) = m := by
  induction food with
  | nil => simp at h
  | cons f fs ih =>
    rcases List.mem_map.mp h with ⟨p, hp, hdp⟩
    rcases List.mem_cons.mp hp with hp | hp
    · exact ⟨0, by simp, by simpa [hp] using hdp⟩
    · rcases ih (List.mem_map.mpr ⟨p, hp, hdp⟩) with ⟨j, hj, hdj⟩
      exact ⟨j + 1, by simpa using hj, by simpa using hdj⟩

/-- C2: for a non-empty food table, the brute-force minimum, the
nearest_points-based helper, the sjoin_nearest distance column and the
STRtree query_nearest distance all agree on every home geometry. -/
theorem c2_nearest_distance_agreement (dsqrt : ℚ → ℚ) (g : Pt)
    (food : List Pt) (h : food ≠ []) :
    ∃ m : ℚ,
      brute_force_min_distance dsqrt g food = some m ∧
      nearest_dist dsqrt g food = some m ∧
      query_nearest_distance dsqrt g food = some m ∧
      sjoin_nearest_distances dsqrt g food ≠ [] ∧
      ∀ d ∈ sjoin_nearest_distances dsqrt g food, d = m := by
  have hne : food.map (dist_fn dsqrt g) ≠ [] := by
    simpa using h
  cases hm : minQ (food.map (dist_fn dsqrt g)) with
  | none => exact absurd ((minQ_eq_none_iff _).mp hm) hne
  | some m =>
    refine ⟨m, ?_, ?_, ?_, ?_, ?_⟩
    · simpa [brute_force_min_distance] using hm
    · rw [nearest_dist, nearest_points_in_dist, hm]
    · rcases mem_map_getD (minQ_mem hm) with ⟨j, hj, hdj⟩
      have hjf : j ∈ all_nearest_indices dsqrt g food := by
        simp only [all_nearest_indices, hm]
        exact List.mem_filter.mpr ⟨List.mem_range.mpr hj, by simpa using hdj⟩
      rcases hfilter : all_nearest_indices dsqrt g food with _ | ⟨j0, rest⟩
      · rw [hfilter] at hjf; simp at hjf
      · have hj0 : j0 ∈ all_nearest_indices dsqrt g food := by
          rw [hfilter]; simp
        have hdist : dist_fn dsqrt g (food.getD j0 (Pt.mk 0 0)) = m := by
          simp only [all_nearest_indices, hm] at hj0
          have := (List.mem_filter.mp hj0).2
          simpa using this
        simpa [query_nearest_distance, hfilter, List.getD] using hdist
    · rcases mem_map_getD (minQ_mem hm) with ⟨j, hj, hdj⟩
      have hjf : j ∈ all_nearest_indices dsqrt g food := by
        simp only [all_nearest_indices, hm]
        exact List.mem_filter.mpr ⟨List.mem_range.mpr hj, by simpa using hdj⟩
      intro hnil
      rw [sjoin_nearest_distances, List.map_eq_nil_iff] at hnil
      rw [hnil] at hjf
      simp at hjf
    · intro d hd
      rcases List.mem_map.mp hd with ⟨j, hjmem, hdj⟩
      simp only [all_nearest_indices, hm] at hjmem
      have := (List.mem_filter.mp hjmem).2
      rw [← hdj]
      simpa using this

/-- Concrete instantiation of the C2 agreement: a home at the origin and
three food establishments. -/
theorem c2_nearest_distance_agreement_witness :
    (([Pt.mk 3 4, Pt.mk 1 1, Pt.mk 5 5] : List Pt) ≠ []) ∧
    ∃ m : ℚ,
      brute_force_min_distance id (Pt.mk 0 0) [Pt.mk 3 4, Pt.mk 1 1, Pt.mk 5 5] =
        some m ∧
      nearest_dist id (Pt.mk 0 0) [Pt.mk 3 4, Pt.mk 1 1, Pt.mk 5 5] = some m ∧
      query_nearest_distance id (Pt.mk 0 0) [Pt.mk 3 4, Pt.mk 1 1, Pt.mk 5 5] =
        some m ∧
      sjoin_nearest_distances id (Pt.mk 0 0) [Pt.mk 3 4, Pt.mk 1 1, Pt.mk 5 5] ≠
        [] ∧
      ∀ d ∈ sjoin_nearest_distances id (Pt.mk 0 0)
        [Pt.mk 3 4, Pt.mk 1 1, Pt.mk 5 5], d = m :=
  ⟨by decide, c2_nearest_distance_agreement id (Pt.mk 0 0)
    [Pt.mk 3 4, Pt.mk 1 1, Pt.mk 5 5] (by decide)⟩

/-! ### C3: merging overlapping polygons, dense versus sparse connectivity -/

/-- Old construction of cell 124: the dense boolean matrix built by
s.geometry.apply(lambda x: s.overlaps(x)).  Row i is s.overlaps(geom i), so
the entry at (i, j) is overlaps(geom j, geom i).  The raw pairwise overlaps
predicate of the external engine is the parameter ov. -/
def overlap_matrix (ov : ℕ → ℕ → Bool) (i j : ℕ) : Bool :=
  ov j i

/-- Model of s.sindex.query_bulk(s.geometry, predicate=overlaps) in cell 130:
the list of (input index, tree index) pairs for which the predicate holds,
input-major as the spatial index emits them. -/
def query_bulk (ov : ℕ → ℕ → Bool) (n : ℕ) : List (ℕ × ℕ) :=
  (List.range n).flatMap
    (fun i => ((List.range n).filter (fun j => ov i j)).map (fun j => (i, j)))

/-- New construction of cell 130: the sparse coo_array built from the
query_bulk pairs, with the cell assigning the two returned index arrays in
swapped order (right_index, left_index), so the matrix entry at (i, j) is
set when (i, j) is among the emitted (input, tree) pairs. -/
def coo_matrix (ps : List (ℕ × ℕ)) (i j : ℕ) : Bool :=
  decide ((i, j) ∈ ps)

/-- The sparse connectivity used by the new cell. -/
def sparse_connectivity (ov : ℕ → ℕ → Bool) (n : ℕ) (i j : ℕ) : Bool :=
  coo_matrix (query_bulk ov n) i j

/-- Reachability under weak connectivity on the first n rows, the relation
scipy.sparse.csgraph.connected_components (directed=True,
connection=weak) partitions by: an edge may be traversed in either
direction. -/
inductive Reaches (adj : ℕ → ℕ → Bool) (n : ℕ) : ℕ → ℕ → Prop
  | refl (i : ℕ) : Reaches adj n i i
  | step (i j k : ℕ) : Reaches adj n i j → j < n → k < n →
      (adj j k || adj k j) = true → Reaches adj n i k

/-- The connected component (dissolve group) of row i: the set of rows
dissolve merges with it. -/
def component_of (adj : ℕ → ℕ → Bool) (n : ℕ) (i : ℕ) : Set ℕ :=
  setOf (fun j => Reaches adj n i j)

lemma sparse_connectivity_eq (ov : ℕ → ℕ → Bool) {n i j : ℕ}
    (hi : i < n) (hj : j < n) : sparse_connectivity ov n i j = ov i j := by
  simp only [sparse_connectivity, coo_matrix, query_bulk]
  rcases hov : ov i j with _ | _
  · simp only [decide_eq_false_iff_not]
    intro hmem
    rcases List.mem_flatMap.mp hmem with ⟨a, _, hpair⟩
    rcases List.mem_map.mp hpair with ⟨b, hbmem, hab⟩
    have ha : a = i := (Prod.mk.injEq _ _ _ _).mp hab |>.1
    have hb : b = j := (Prod.mk.injEq _ _ _ _).mp hab |>.2
    have := (List.mem_filter.mp hbmem).2
    rw [ha, hb] at this
    rw [hov] at this
    exact Bool.false_ne_true this
  · simp only [decide_eq_true_eq]
    refine List.mem_flatMap.mpr ⟨i, List.mem_range.mpr hi, ?_⟩
    exact List.mem_map.mpr ⟨j, List.mem_filter.mpr
      ⟨List.mem_range.mpr hj, hov⟩, rfl⟩

lemma reaches_of_reaches_symmswap {adjA adjB : ℕ → ℕ → Bool} {n : ℕ}
    (hstep : ∀ j k, j < n → k < n →
      (adjA j k || adjA k j) = (adjB j k || adjB k j))
    {i j : ℕ} (h : Reaches adjA n i j) : Reaches adjB n i j := by
  induction h with
  | refl => exact Reaches.refl _
  | step p q hrec hp hq hedge ih =>
    exact Reaches.step _ p q ih hp hq (by rw [← hstep p q hp hq]; exact hedge)

/-- C3: on every pairwise overlaps relation, the dense matrix of the old
cell and the swapped-index sparse matrix of the new cell induce exactly the
same weak-connectivity partition of the rows, so dissolve merges the same
groups either way.  No symmetry of the overlaps predicate is needed: the
two matrices are transposes of each other and weak connectivity ignores
edge direction. -/
theorem c3_dissolve_partition_equivalence (ov : ℕ → ℕ → Bool) (n i j : ℕ) :
    (Reaches (overlap_matrix ov) n i j ↔
      Reaches (sparse_connectivity ov n) n i j) ∧
    component_of (overlap_matrix ov) n i =
      component_of (sparse_connectivity ov n) n i := by
  have hstep : ∀ j k, j < n → k < n →
      ((overlap_matrix ov) j k || (overlap_matrix ov) k j) =
        ((sparse_connectivity ov n) j k || (sparse_connectivity ov n) k j) := by
    intro a b ha hb
    rw [sparse_connectivity_eq ov ha hb, sparse_connectivity_eq ov hb ha]
    simp only [overlap_matrix]
    exact Bool.or_comm _ _
  have hiff : ∀ a b, Reaches (overlap_matrix ov) n a b ↔
      Reaches (sparse_connectivity ov n) n a b := by
    intro a b
    constructor
    · exact reaches_of_reaches_symmswap hstep
    · exact reaches_of_reaches_symmswap (fun p q hp hq => (hstep p q hp hq).symm)
  refine ⟨hiff i j, ?_⟩
  ext b
  exact hiff i b

/-! ### C8: trajectories as linestrings, groupby versus indices -/

/-- First-appearance list of distinct values, with an accumulator of values
already seen. -/
def uniquesAux (seen : List ℕ) : List ℕ → List ℕ
  | [] => []
  | a :: l =>
    if a ∈ seen then uniquesAux seen l else a :: uniquesAux (a :: seen) l

/-- The distinct values of a list in order of first appearance. -/
def uniques (l : List ℕ) : List ℕ :=
  uniquesAux [] l

/-- Position of the first occurrence of a value in a list. -/
def rankIn : List ℕ → ℕ → ℕ
  | [], _ => 0
  | a :: l, v => if v = a then 0 else rankIn l v + 1

/-- Model of pandas.factorize (cell 51): codes enumerating each value by its
first-appearance rank, together with the distinct values in first-appearance
order. -/
def factorize (l : List ℕ) : List ℕ × List ℕ :=
  (l.map (rankIn (uniques l)), uniques l)

/-- Groups a labelled row list into maximal runs of consecutive rows with
equal labels, keeping row order inside each run. -/
def runsBy : List (ℕ × Pt) → List (ℕ × List Pt)
  | [] => []
  | (i, p) :: rest =>
    match runsBy rest with
    | [] => [(i, [p])]
    | (j, ps) :: more =>
      if i = j then (j, p :: ps) :: more else (i, [p]) :: (j, ps) :: more

/-- Whether a list of naturals is non-decreasing. -/
def isSortedN : List ℕ → Bool
  | [] => true
  | [_] => true
  | a :: b :: l => decide (a ≤ b) && isSortedN (b :: l)

/-- Model of the external shapely.linestrings(coords, indices=...) call of
cells 45 and 49.  Per the upstream documentation the index array must be
non-decreasing (otherwise the call raises ValueError, modelled as none) and
each output linestring needs at least two coordinates; when the input is
accepted, each maximal run of equal consecutive indices becomes one
linestring holding those coordinate rows in input order. -/
def linestrings_with_indices (coords : List Pt) (indices : List ℕ) :
    Option (List (List Pt)) :=
  if isSortedN indices = true then
    if ((runsBy (indices.zip coords)).map Prod.snd).all
        (fun g => decide (2 ≤ g.length)) then
      some ((runsBy (indices.zip coords)).map Prod.snd)
    else none
  else none

/-- The rows of the table carrying a given trajectory id, in row order. -/
def rowsWithId (t : ℕ) (rows : List (ℕ × Pt)) : List Pt :=
  (rows.filter (fun r => decide (r.1 = t))).map Prod.snd

/-- Sorted insertion of a natural number. -/
def insertSorted (v : ℕ) : List ℕ → List ℕ
  | [] => [v]
  | a :: l => if v ≤ a then v :: a :: l else a :: insertSorted v l

/-- Insertion sort on naturals. -/
def sortN : List ℕ → List ℕ
  | [] => []
  | a :: l => insertSorted a (sortN l)

/-- Old construction of cell 41: df.groupby(traj_id).apply(LineString),
which gathers the rows of each distinct trajectory id in row order, one
group per id, with groups listed by ascending id. -/
def groupby_linestring (coords : List Pt) (ids : List ℕ) :
    List (ℕ × List Pt) :=
  (sortN (uniques ids)).map (fun t => (t, rowsWithId t (ids.zip coords)))

/-- The trajectory-id column of a table presented as labelled blocks: each
block contributes one copy of its label per row. -/
def blockIds (blocks : List (ℕ × List Pt)) : List ℕ :=
  (blocks.map (fun b => b.2.map (fun _ => b.1))).flatten

/-- The coordinate column of a table presented as labelled blocks. -/
def blockCoords (blocks : List (ℕ × List Pt)) : List Pt :=
  (blocks.map Prod.snd).flatten

/-- The labelled row list of a table presented as labelled blocks. -/
def zipOfBlocks (blocks : List (ℕ × List Pt)) : List (ℕ × Pt) :=
  (blocks.map (fun b => b.2.map (fun p => (b.1, p)))).flatten

lemma runsBy_cons (i : ℕ) (p : Pt) (l : List (ℕ × Pt)) :
    runsBy ((i, p) :: l) =
      match runsBy l with
      | [] => [(i, [p])]
      | (j, ps) :: more =>
        if i = j then (j, p :: ps) :: more else (i, [p]) :: (j, ps) :: more :=
  rfl

lemma runsBy_head_label (l : List (ℕ × Pt)) :
    (runsBy l).head?.map Prod.fst = l.head?.map Prod.fst := by
  cases l with
  | nil => rfl
  | cons r rest =>
    rcases r with ⟨i, p⟩
    rw [runsBy_cons]
    cases hr : runsBy rest with
    | nil => simp
    | cons b more =>
      rcases b with ⟨j, ps⟩
      by_cases hij : i = j
      · simp [hij]
      · simp [hij]

lemma runsBy_block_append (c : ℕ) (p : Pt) (ps : List Pt)
    (rest : List (ℕ × Pt))
    (hhead : rest.head?.map Prod.fst ≠ some c) :
    runsBy ((p :: ps).map (fun q => (c, q)) ++ rest) =
      (c, p :: ps) :: runsBy rest := by
  induction ps generalizing p with
  | nil =>
    simp only [List.map, List.cons_append, List.nil_append]
    rw [runsBy_cons]
    cases hr : runsBy rest with
    | nil => simp
    | cons b more =>
      rcases b with ⟨j, qs⟩
      have hj : some j = rest.head?.map Prod.fst := by
        rw [← runsBy_head_label, hr]; rfl
      have hcj : ¬ c = j := by
        intro he
        exact hhead (by rw [← hj, he])
      simp [hcj]
  | cons q qs ih =>
    have hih := ih q
    simp only [List.map, List.cons_append] at hih ⊢
    rw [runsBy_cons, hih]
    simp

lemma runsBy_zipOfBlocks : ∀ (blocks : List (ℕ × List Pt)),
    List.Chain' (fun a b => a.1 ≠ b.1) blocks →
    (∀ b ∈ blocks, b.2 ≠ []) →
    runsBy (zipOfBlocks blocks) = blocks := by
  intro blocks
  induction blocks with
  | nil => intro _ _; rfl
  | cons b rest ih =>
    intro hchain hne
    rcases b with ⟨c, ps⟩
    rcases hps : ps with _ | ⟨p, ps2⟩
    · exact absurd (hps ▸ hne (c, ps) (by simp)) (by simp [hps])
    · have hhead : (zipOfBlocks rest).head?.map Prod.fst ≠ some c := by
        cases rest with
        | nil => simp [zipOfBlocks]
        | cons b2 rest2 =>
          rcases b2 with ⟨c2, qs⟩
          rcases hqs : qs with _ | ⟨q, qs2⟩
          · exact absurd (hqs ▸ hne (c2, qs) (by simp)) (by simp [hqs])
          · have hne2 : c ≠ c2 := by
              have := List.chain'_cons.mp hchain
              simpa using this.1
            simp [zipOfBlocks, hqs]
            intro he
            exact absurd he.symm hne2
      have hrest : runsBy (zipOfBlocks rest) = rest := by
        refine ih ?_ ?_
        · exact (List.chain'_cons'.mp hchain).2
        · intro b hb; exact hne b (List.mem_cons_of_mem _ hb)
      have : zipOfBlocks ((c, p :: ps2) :: rest) =
          (p :: ps2).map (fun q => (c, q)) ++ zipOfBlocks rest := by
        simp [zipOfBlocks]
      rw [this, runsBy_block_append c p ps2 _ hhead, hrest]

lemma uniquesAux_skip (seen : List ℕ) (c : ℕ) (hc : c ∈ seen)
    (ps : List Pt) (l : List ℕ) :
    uniquesAux seen (ps.map (fun _ => c) ++ l) = uniquesAux seen l := by
  induction ps with
  | nil => rfl
  | cons p ps ih =>
    show uniquesAux seen (c :: (ps.map (fun _ => c) ++ l)) = uniquesAux seen l
    simp only [uniquesAux]
    rw [if_pos hc]
    exact ih

lemma uniquesAux_blockIds : ∀ (blocks : List (ℕ × List Pt)) (seen : List ℕ),
    (blocks.map Prod.fst).Nodup →
    (∀ b ∈ blocks, b.2 ≠ []) →
    (∀ b ∈ blocks, b.1 ∉ seen) →
    uniquesAux seen (blockIds blocks) = blocks.map Prod.fst := by
  intro blocks
  induction blocks with
  | nil => intro seen _ _ _; rfl
  | cons b rest ih =>
    intro seen hnd hne hseen
    rcases b with ⟨c, ps⟩
    rcases hps : ps with _ | ⟨p, ps2⟩
    · exact absurd (hps ▸ hne (c, ps) (by simp)) (by simp [hps])
    · subst hps
      have hmapcons : ((c, p :: ps2) :: rest).map Prod.fst =
          c :: rest.map Prod.fst := rfl
      rw [hmapcons] at hnd
      have hnd2 := List.nodup_cons.mp hnd
      have hexp : blockIds ((c, p :: ps2) :: rest) =
          c :: (ps2.map (fun _ => c) ++ blockIds rest) := by
        simp [blockIds, List.replicate_succ]
      rw [hexp]
      simp only [uniquesAux]
      have hcseen : c ∉ seen := by
        have := hseen (c, p :: ps2) (by simp)
        simpa using this
      rw [if_neg hcseen]
      rw [uniquesAux_skip (c :: seen) c (by simp) ps2 (blockIds rest)]
      have htail : uniquesAux (c :: seen) (blockIds rest) =
          rest.map Prod.fst := by
        refine ih (c :: seen) ?_ ?_ ?_
        · exact hnd2.2
        · intro b hb; exact hne b (List.mem_cons_of_mem _ hb)
        · intro b hb
          have hb1 : b.1 ∈ rest.map Prod.fst := List.mem_map.mpr ⟨b, hb, rfl⟩
          have hbc : b.1 ≠ c := by
            intro he
            exact hnd2.1 (he ▸ hb1)
          have hbs : b.1 ∉ seen := hseen b (List.mem_cons_of_mem _ hb)
          simp [hbc, hbs]
      rw [htail]
      simp

lemma uniques_blockIds (blocks : List (ℕ × List Pt))
    (hnd : (blocks.map Prod.fst).Nodup)
    (hne : ∀ b ∈ blocks, b.2 ≠ []) :
    uniques (blockIds blocks) = blocks.map Prod.fst :=
  uniquesAux_blockIds blocks [] hnd hne (by simp)

lemma rankIn_ne (U : List ℕ) (a v : ℕ) (hv : v ≠ a) :
    rankIn (a :: U) v = rankIn U v + 1 := by
  simp [rankIn, hv]

lemma map_rankIn_self : ∀ (U : List ℕ), U.Nodup →
    U.map (rankIn U) = List.range U.length := by
  intro U
  induction U with
  | nil => intro _; rfl
  | cons a U2 ih =>
    intro hnd
    have h0 : rankIn (a :: U2) a = 0 := by simp [rankIn]
    have htail : U2.map (rankIn (a :: U2)) =
        (U2.map (rankIn U2)).map (fun k => k + 1) := by
      rw [List.map_map]
      refine List.map_congr_left ?_
      intro v hv
      have hva : v ≠ a := by
        intro he
        exact (List.nodup_cons.mp hnd).1 (he ▸ hv)
      simp [rankIn_ne U2 a v hva]
    have hrange := ih (List.nodup_cons.mp hnd).2
    simp only [List.map, h0, htail, hrange, List.length_cons]
    rw [List.range_succ_eq_map]

lemma blockIds_map (f : ℕ → ℕ) (blocks : List (ℕ × List Pt)) :
    (blockIds blocks).map f =
      blockIds (blocks.map (fun b => (f b.1, b.2))) := by
  simp only [blockIds, List.map_flatten, List.map_map]
  refine congrArg List.flatten ?_
  refine List.map_congr_left ?_
  intro b _
  simp

lemma blockCoords_relabel (f : ℕ → ℕ) (blocks : List (ℕ × List Pt)) :
    blockCoords (blocks.map (fun b => (f b.1, b.2))) = blockCoords blocks := by
  simp only [blockCoords, List.map_map]
  refine congrArg List.flatten ?_
  refine List.map_congr_left ?_
  intro b _
  rfl

lemma zip_map_const (c : ℕ) (ps : List Pt) :
    (ps.map (fun _ => c)).zip ps = ps.map (fun p => (c, p)) := by
  induction ps with
  | nil => rfl
  | cons p ps ih => simp only [List.map, List.zip_cons_cons, ih]

lemma zip_blockIds_blockCoords : ∀ (blocks : List (ℕ × List Pt)),
    (blockIds blocks).zip (blockCoords blocks) = zipOfBlocks blocks := by
  intro blocks
  induction blocks with
  | nil => rfl
  | cons b rest ih =>
    rcases b with ⟨c, ps⟩
    have h1 : blockIds ((c, ps) :: rest) =
        ps.map (fun _ => c) ++ blockIds rest := by simp [blockIds]
    have h2 : blockCoords ((c, ps) :: rest) = ps ++ blockCoords rest := by
      simp [blockCoords]
    have h3 : zipOfBlocks ((c, ps) :: rest) =
        ps.map (fun p => (c, p)) ++ zipOfBlocks rest := by simp [zipOfBlocks]
    rw [h1, h2, h3, List.zip_append (by simp), zip_map_const, ih]

lemma mem_blockIds {v : ℕ} {blocks : List (ℕ × List Pt)}
    (h : v ∈ blockIds blocks) : v ∈ blocks.map Prod.fst := by
  rcases List.mem_flatten.mp h with ⟨l, hl, hvl⟩
  rcases List.mem_map.mp hl with ⟨b, hb, hbl⟩
  rcases List.mem_map.mp (hbl ▸ hvl) with ⟨p, _, hpv⟩
  exact List.mem_map.mpr ⟨b, hb, hpv⟩

lemma isSortedN_block_append (c : ℕ) (ps : List Pt) (rest : List ℕ)
    (hrest : isSortedN rest = true)
    (hhead : ∀ b, rest.head? = some b → c ≤ b) :
    isSortedN (ps.map (fun _ => c) ++ rest) = true := by
  induction ps with
  | nil => exact hrest
  | cons p ps ih =>
    cases hps : ps with
    | nil =>
      cases hrest2 : rest with
      | nil => rfl
      | cons b l =>
        have hcb : c ≤ b := hhead b (by rw [hrest2]; rfl)
        show (decide (c ≤ b) && isSortedN (b :: l)) = true
        rw [hrest2] at hrest
        simp [hcb, hrest]
    | cons q qs =>
      subst hps
      show (decide (c ≤ c) && isSortedN ((q :: qs).map (fun _ => c) ++ rest)) =
        true
      rw [ih]
      simp

lemma isSortedN_blockIds : ∀ (blocks : List (ℕ × List Pt)),
    (blocks.map Prod.fst).Pairwise (· ≤ ·) →
    isSortedN (blockIds blocks) = true := by
  intro blocks
  induction blocks with
  | nil => intro _; rfl
  | cons b rest ih =>
    intro hpw
    rcases b with ⟨c, ps⟩
    have hmapcons : ((c, ps) :: rest).map Prod.fst = c :: rest.map Prod.fst :=
      rfl
    rw [hmapcons] at hpw
    have hpw2 := List.pairwise_cons.mp hpw
    have hexp : blockIds ((c, ps) :: rest) =
        ps.map (fun _ => c) ++ blockIds rest := by
      simp [blockIds]
    rw [hexp]
    refine isSortedN_block_append c ps (blockIds rest) (ih hpw2.2) ?_
    intro b hb
    have hmem : b ∈ blockIds rest := by
      cases hbl : blockIds rest with
      | nil => rw [hbl] at hb; cases hb
      | cons x l =>
        rw [hbl] at hb
        simp only [List.head?_cons, Option.some.injEq] at hb
        subst hb
        exact List.mem_cons_self _ _
    exact hpw2.1 _ (mem_blockIds hmem)

/-- C8: first, on any table whose rows are grouped into contiguous blocks
with pairwise distinct trajectory ids and at least two rows each,
shapely.linestrings over the factorized id column yields exactly one
linestring per distinct trajectory id, holding that trajectory s coordinate
rows in their original row order; second, on a concrete table whose first
trajectory is interleaved with a second one, the construction does not
produce the per-trajectory grouping the old groupby-apply code computes
(the factorized codes are no longer sorted, so the external call rejects
them, modelled as none). -/
theorem c8_linestrings_indices_grouping :
    (∀ (blocks : List (ℕ × List Pt)),
      (blocks.map Prod.fst).Nodup →
      (∀ b ∈ blocks, 2 ≤ b.2.length) →
      linestrings_with_indices (blockCoords blocks)
          (factorize (blockIds blocks)).1 =
        some (blocks.map Prod.snd)) ∧
    linestrings_with_indices
        [Pt.mk 0 0, Pt.mk 1 0, Pt.mk 2 0, Pt.mk 3 0, Pt.mk 4 0, Pt.mk 5 0]
        (factorize [10, 10, 20, 20, 10, 10]).1 ≠
      some ((groupby_linestring
        [Pt.mk 0 0, Pt.mk 1 0, Pt.mk 2 0, Pt.mk 3 0, Pt.mk 4 0, Pt.mk 5 0]
        [10, 10, 20, 20, 10, 10]).map Prod.snd) := by
  constructor
  · intro blocks hnd h2
    have hne : ∀ b ∈ blocks, b.2 ≠ [] := by
      intro b hb he
      have := h2 b hb
      rw [he] at this
      simp at this
    have hUeq : uniques (blockIds blocks) = blocks.map Prod.fst :=
      uniques_blockIds blocks hnd hne
    have hcodes : (factorize (blockIds blocks)).1 =
        blockIds (blocks.map
          (fun b => (rankIn (uniques (blockIds blocks)) b.1, b.2))) := by
      simp only [factorize]
      exact blockIds_map (rankIn (uniques (blockIds blocks))) blocks
    have hlabels : (blocks.map
        (fun b => (rankIn (uniques (blockIds blocks)) b.1, b.2))).map
          Prod.fst = List.range blocks.length := by
      have hcomp : (blocks.map
          (fun b => (rankIn (uniques (blockIds blocks)) b.1, b.2))).map
            Prod.fst =
          (blocks.map Prod.fst).map (rankIn (uniques (blockIds blocks))) := by
        simp [List.map_map]
      rw [hcomp, ← hUeq, map_rankIn_self _ (hUeq ▸ hnd)]
      rw [hUeq]
      simp
    have hpairlt : ((blocks.map
        (fun b => (rankIn (uniques (blockIds blocks)) b.1, b.2))).map
          Prod.fst).Pairwise (· < ·) := by
      rw [hlabels]
      exact List.pairwise_lt_range _
    have hchainne : List.Chain' (fun a b => a.1 ≠ b.1)
        (blocks.map
          (fun b => (rankIn (uniques (blockIds blocks)) b.1, b.2))) := by
      have hch : List.Chain' (· ≠ ·) ((blocks.map
          (fun b => (rankIn (uniques (blockIds blocks)) b.1, b.2))).map
            Prod.fst) :=
        (hpairlt.imp (fun h => Nat.ne_of_lt h)).chain'
      exact (List.chain'_map Prod.fst).mp hch
    have hne2 : ∀ b ∈ blocks.map
        (fun b => (rankIn (uniques (blockIds blocks)) b.1, b.2)), b.2 ≠ [] := by
      intro b hb
      rcases List.mem_map.mp hb with ⟨b0, hb0, hbeq⟩
      rw [← hbeq]
      exact hne b0 hb0
    have hzipeq : (blockIds (blocks.map
        (fun b => (rankIn (uniques (blockIds blocks)) b.1, b.2)))).zip
          (blockCoords blocks) =
        zipOfBlocks (blocks.map
          (fun b => (rankIn (uniques (blockIds blocks)) b.1, b.2))) := by
      rw [← blockCoords_relabel (rankIn (uniques (blockIds blocks))) blocks]
      exact zip_blockIds_blockCoords _
    have hruns : runsBy ((blockIds (blocks.map
        (fun b => (rankIn (uniques (blockIds blocks)) b.1, b.2)))).zip
          (blockCoords blocks)) =
        blocks.map (fun b => (rankIn (uniques (blockIds blocks)) b.1, b.2)) := by
      rw [hzipeq]
      exact runsBy_zipOfBlocks _ hchainne hne2
    have hsorted : isSortedN (blockIds (blocks.map
        (fun b => (rankIn (uniques (blockIds blocks)) b.1, b.2)))) = true :=
      isSortedN_blockIds _ (hpairlt.imp (fun h => Nat.le_of_lt h))
    have hsnd : (blocks.map
        (fun b => (rankIn (uniques (blockIds blocks)) b.1, b.2))).map
          Prod.snd = blocks.map Prod.snd := by
      simp [List.map_map]
    have hall : ((runsBy ((blockIds (blocks.map
        (fun b => (rankIn (uniques (blockIds blocks)) b.1, b.2)))).zip
          (blockCoords blocks))).map Prod.snd).all
        (fun g => decide (2 ≤ g.length)) = true := by
      rw [hruns, hsnd]
      rw [List.all_eq_true]
      intro g hg
      rcases List.mem_map.mp hg with ⟨b, hb, hbe⟩
      rw [← hbe]
      exact decide_eq_true (h2 b hb)
    rw [hcodes]
    rw [linestrings_with_indices, if_pos hsorted, if_pos hall, hruns, hsnd]
  · decide

/-- Concrete instantiation of the grouped half of C8: two trajectories of
two rows each, in contiguous blocks. -/
theorem c8_linestrings_indices_grouping_witness :
    ((([(5, [Pt.mk 0 0, Pt.mk 1 1]), (9, [Pt.mk 2 2, Pt.mk 3 3])] :
      List (ℕ × List Pt)).map Prod.fst).Nodup) ∧
    linestrings_with_indices
        (blockCoords [(5, [Pt.mk 0 0, Pt.mk 1 1]), (9, [Pt.mk 2 2, Pt.mk 3 3])])
        (factorize (blockIds
          [(5, [Pt.mk 0 0, Pt.mk 1 1]), (9, [Pt.mk 2 2, Pt.mk 3 3])])).1 =
      some ([(5, [Pt.mk 0 0, Pt.mk 1 1]), (9, [Pt.mk 2 2, Pt.mk 3 3])].map
        Prod.snd) :=
  ⟨by decide, c8_linestrings_indices_grouping.1
    [(5, [Pt.mk 0 0, Pt.mk 1 1]), (9, [Pt.mk 2 2, Pt.mk 3 3])]
    (by decide) (by decide)⟩

/-! ### C1: is every operation pure forwarding to an external library? -/

/-- Round to the nearest integer, ties to even, the rounding used by the
numeric formatting in the notebook-authored mround helper. -/
def roundHalfEven (q : ℚ) : ℤ :=
  if q - Int.floor q < 1 / 2 then Int.floor q
  else if 1 / 2 < q - Int.floor q then Int.floor q + 1
  else if Int.floor q % 2 = 0 then Int.floor q else Int.floor q + 1

/-- The notebook-authored mround helper of cell 77, on the numeric value of
the matched coordinate numeral: format the value with three decimals, i.e.
round it to the nearest thousandth. -/
def mround (q : ℚ) : ℚ :=
  (roundHalfEven (q * 1000) : ℚ) / 1000

/-- Old construction of cell 77: the net effect on one point geometry of
wkt.loads(re.sub(simpledec, mround, x.wkt)): every coordinate numeral of
the WKT dump is replaced by its mround image before re-parsing. -/
def rounded_old (p : Pt) : Pt :=
  Pt.mk (mround p.x) (mround p.y)

/-- C1 counterexample: the coordinate-rounding cell is not pure forwarding
into an external library: the notebook-authored mround itself transforms
the coordinate value, so the rounding pipeline changes the data by internal
computation. -/
theorem c1_mround_not_forwarding :
    rounded_old (Pt.mk (123456 / 100000) 0) ≠ Pt.mk (123456 / 100000) 0 := by
  have h1234 : Int.floor ((123456 : ℚ) / 100000 * 1000) = 1234 := by
    rw [Int.floor_eq_iff]
    constructor <;> norm_num
  have hr : roundHalfEven ((123456 : ℚ) / 100000 * 1000) = 1235 := by
    rw [roundHalfEven, h1234, if_neg (by norm_num), if_pos (by norm_num)]
    norm_num
  intro h
  have hx : mround ((123456 : ℚ) / 100000) = 123456 / 100000 := by
    have := congrArg Pt.x h
    simpa [rounded_old] using this
  rw [mround, hr] at hx
  norm_num at hx

lemma roundHalfEven_close (x : ℚ) : |(roundHalfEven x : ℚ) - x| ≤ 1 / 2 := by
  have h0 : (Int.floor x : ℚ) ≤ x := Int.floor_le x
  have h1 : x < (Int.floor x : ℚ) + 1 := Int.lt_floor_add_one x
  rw [roundHalfEven]
  by_cases hc1 : x - Int.floor x < 1 / 2
  · rw [if_pos hc1, abs_le]
    constructor <;> linarith
  · rw [if_neg hc1]
    by_cases hc2 : 1 / 2 < x - Int.floor x
    · rw [if_pos hc2]
      push_cast
      rw [abs_le]
      constructor <;> linarith
    · rw [if_neg hc2]
      have heq : x - Int.floor x = 1 / 2 :=
        le_antisymm (not_lt.mp hc2) (not_lt.mp hc1)
      by_cases hc3 : Int.floor x % 2 = 0
      · rw [if_pos hc3, abs_le]
        constructor <;> linarith
      · rw [if_neg hc3]
        push_cast
        rw [abs_le]
        constructor <;> linarith

/-- C1 amended: all the listed operations are direct external-library calls
except the old-style coordinate rounding, whose computation is contributed
by the notebook-authored mround: mround maps each coordinate to an exact
multiple of one thousandth at most half a thousandth away, rather than
forwarding the value unchanged. -/
theorem c1_amended_mround_rounds (q : ℚ) :
    (∃ z : ℤ, mround q = (z : ℚ) / 1000) ∧ |mround q - q| ≤ 1 / 2000 := by
  constructor
  · exact ⟨roundHalfEven (q * 1000), rfl⟩
  · have h := roundHalfEven_close (q * 1000)
    rw [mround]
    have hrw : (roundHalfEven (q * 1000) : ℚ) / 1000 - q =
        ((roundHalfEven (q * 1000) : ℚ) - q * 1000) / 1000 := by ring
    rw [hrw, abs_div, abs_of_pos (by norm_num : (0 : ℚ) < 1000)]
    rw [div_le_iff₀ (by norm_num : (0 : ℚ) < 1000)]
    linarith

/-! ### C6: the externally visible input-output surface of the notebook -/

/-- Kind of an input-output access a cell performs. -/
inductive IOKind where
  | read
  | write
deriving DecidableEq

/-- One input-output access: its kind and the resource it touches. -/
structure IOEvent where
  kind : IOKind
  target : String
deriving DecidableEq

/-- Every external-resource access a notebook cell performs, in cell order,
translated from the cells: read_csv (cell 20), read_parquet (cell 28),
read_file on GeoJSON (cells 56 and 58), to_file and to_parquet (cell 60),
read_file on the written GeoPackage (cells 61 and 62), read_parquet on the
written parquet (cell 63), read_file on a remote WFS URL (cell 89), and
read_file on the two GeoPackages (cell 95). -/
def notebook_io_events : List IOEvent :=
  [IOEvent.mk IOKind.read ("data/sales.csv"),
   IOEvent.mk IOKind.read ("data/sales.parquet"),
   IOEvent.mk IOKind.read ("data/sales.geojson"),
   IOEvent.mk IOKind.read ("data/sales.geojson"),
   IOEvent.mk IOKind.write ("data/sales.gpkg"),
   IOEvent.mk IOKind.write ("data/sales_geo.parquet"),
   IOEvent.mk IOKind.read ("data/sales.gpkg"),
   IOEvent.mk IOKind.read ("data/sales.gpkg"),
   IOEvent.mk IOKind.read ("data/sales_geo.parquet"),
   IOEvent.mk IOKind.read
     ("https://kartta.hsy.fi/geoserver/wfs?service=wfs&version=2.0.0&request=GetFeature&typeName=asuminen_ja_maankaytto:Vaestotietoruudukko_2020&srsName=EPSG:4326&bbox=24.6,60.1,25.2,60.4,EPSG:4326"),
   IOEvent.mk IOKind.read ("data/sales.gpkg"),
   IOEvent.mk IOKind.read ("data/food_establishments.gpkg")]

/-- The five sample data files the specification declares as the only
surface. -/
def spec_declared_surface : List String :=
  [("data/sales.csv"), ("data/sales.parquet"), ("data/sales.geojson"),
   ("data/sales.gpkg"), ("data/food_establishments.gpkg")]

/-- Files the notebook writes beyond the declared surface. -/
def notebook_written_files : List String :=
  [("data/sales.gpkg"), ("data/sales_geo.parquet")]

/-- Resources the notebook reads beyond the declared five files. -/
def notebook_extra_reads : List String :=
  [("data/sales_geo.parquet"),
   ("https://kartta.hsy.fi/geoserver/wfs?service=wfs&version=2.0.0&request=GetFeature&typeName=asuminen_ja_maankaytto:Vaestotietoruudukko_2020&srsName=EPSG:4326&bbox=24.6,60.1,25.2,60.4,EPSG:4326")]

set_option maxRecDepth 10000 in
/-- C6 counterexample: it is false that every access of the notebook is a
read of one of the five declared sample files: cell 60 writes
data/sales.gpkg (and data/sales_geo.parquet), cell 63 reads the written
parquet and cell 89 reads a remote WFS URL. -/
theorem c6_surface_claim_false :
    ¬ (∀ e ∈ notebook_io_events,
        e.kind = IOKind.read ∧ e.target ∈ spec_declared_surface) := by
  decide

set_option maxRecDepth 10000 in
/-- C6 amended: the externally visible surface is the notebooks, the five
declared sample files, two files the notebook itself writes and re-reads
(data/sales.gpkg and data/sales_geo.parquet) and one remote WFS URL it
reads: every access is either a read of a declared or self-written resource
or the remote URL, or a write of one of the two generated files. -/
theorem c6_amended_io_surface :
    ∀ e ∈ notebook_io_events,
      (e.kind = IOKind.read ∧
        (e.target ∈ spec_declared_surface ∨ e.target ∈ notebook_extra_reads)) ∨
      (e.kind = IOKind.write ∧ e.target ∈ notebook_written_files) := by
  decide

set_option maxRecDepth 10000 in
/-- Concrete instantiation of the amended C6 statement at the write event
of cell 60. -/
theorem c6_amended_io_surface_witness :
    (IOEvent.mk IOKind.write ("data/sales.gpkg") ∈ notebook_io_events) ∧
    (((IOEvent.mk IOKind.write ("data/sales.gpkg")).kind = IOKind.read ∧
      ((IOEvent.mk IOKind.write ("data/sales.gpkg")).target ∈
          spec_declared_surface ∨
        (IOEvent.mk IOKind.write ("data/sales.gpkg")).target ∈
          notebook_extra_reads)) ∨
     ((IOEvent.mk IOKind.write ("data/sales.gpkg")).kind = IOKind.write ∧
      (IOEvent.mk IOKind.write ("data/sales.gpkg")).target ∈
        notebook_written_files)) :=
  ⟨by decide, c6_amended_io_surface _ (by decide)⟩

/-! ### C7: failures propagate unchanged out of the cells -/

/-- Evaluation of one notebook cell: its external library calls in source
order, each taking the session state and either returning the next state or
raising a library error.  No cell of the notebook contains a try-except, so
evaluation is plain sequencing of the calls. -/
def runCalls : List (σ → Except ε σ) → σ → Except ε σ
  | [], s => Except.ok s
  | f :: rest, s => Except.bind (f s) (runCalls rest)

/-- The exception handlers appearing in the notebook cells, as extracted
from the source: there are none. -/
def notebook_exception_handlers : List String := []

/-- The class definitions appearing in the notebook cells, as extracted
from the source: there are none (in particular no custom error type); the
only definitions are the functions mround, nearest_dist and
style_function and the simpledec regex. -/
def notebook_class_defs : List String := []

/-- C7: if a library call inside a cell raises an error, the same error
value leaves the cell untouched and the remaining calls never run; and the
notebook defines no exception handler and no custom error class. -/
theorem c7_error_propagation (pre post : List (σ → Except ε σ))
    (f : σ → Except ε σ) (s s2 : σ) (e : ε)
    (hpre : runCalls pre s = Except.ok s2) (hf : f s2 = Except.error e) :
    runCalls (pre ++ f :: post) s = Except.error e ∧
    notebook_exception_handlers = [] ∧ notebook_class_defs = [] := by
  refine ⟨?_, rfl, rfl⟩
  induction pre generalizing s with
  | nil =>
    simp only [runCalls] at hpre
    cases hpre
    rw [List.nil_append, runCalls, hf]
    rfl
  | cons g rest ih =>
    rw [runCalls] at hpre
    rw [List.cons_append, runCalls]
    cases hg : g s with
    | ok s3 =>
      rw [hg] at hpre
      simp only [Except.bind] at hpre ⊢
      exact ih s3 hpre
    | error e2 =>
      rw [hg] at hpre
      simp only [Except.bind] at hpre
      cases hpre

/-- Concrete instantiation of the C7 propagation: one successful call, then
a call that raises error 7. -/
theorem c7_error_propagation_witness :
    (runCalls ([fun n => Except.ok (n + 1)] : List (ℕ → Except ℕ ℕ)) 0 =
      Except.ok 1) ∧
    ((fun _ => Except.error 7 : ℕ → Except ℕ ℕ) 1 = Except.error 7) ∧
    (runCalls (([fun n => Except.ok (n + 1)] : List (ℕ → Except ℕ ℕ)) ++
        (fun _ => Except.error 7 : ℕ → Except ℕ ℕ) :: []) 0 =
      Except.error 7 ∧
     notebook_exception_handlers = [] ∧ notebook_class_defs = []) :=
  ⟨rfl, rfl, c7_error_propagation ([fun n => Except.ok (n + 1)] :
      List (ℕ → Except ℕ ℕ)) []
    (fun _ => Except.error 7) 0 1 7 rfl rfl⟩

/-! ### C9: to_crs is non-mutating and argument spelling is immaterial -/

/-- Splits a character list at the first colon, if any. -/
def splitAtColon : List Char → List Char × Option (List Char)
  | [] => ([], none)
  | c :: cs =>
    if c = ':' then ([], some cs)
    else
      let r := splitAtColon cs
      (c :: r.1, r.2)

/-- The ways the notebook spells a coordinate reference system argument
(cells 85 and 87): an authority string such as epsg:3857, a bare EPSG
integer code, the epsg keyword argument, an (authority, code) pair, and the
legacy init dictionary. -/
inductive CRSArg where
  | authString (s : String)
  | codeNum (n : ℕ)
  | epsgKeyword (n : ℕ)
  | authPair (a : String) (c : String)
deriving DecidableEq

/-- Reads an epsg:NNNN authority string into its numeric code. -/
def parseAuthCode (s : String) : Option ℕ :=
  match splitAtColon s.toList with
  | (auth, some code) =>
    if auth = String.toList ("epsg") ∨ auth = String.toList ("EPSG") then
      parseDigits code
    else none
  | (_, none) => none

/-- Model of pyproj CRS.from_user_input as used by to_crs: every accepted
spelling normalizes to the EPSG code it denotes. -/
def normalize_crs : CRSArg → Option ℕ
  | CRSArg.authString s => parseAuthCode s
  | CRSArg.codeNum n => some n
  | CRSArg.epsgKeyword n => some n
  | CRSArg.authPair a c =>
    if a.toList = String.toList ("epsg") ∨ a.toList = String.toList ("EPSG")
    then parseDigits c.toList
    else none

/-- A GeoDataFrame for the reprojection cells: geometry column plus its
current EPSG code. -/
structure GeoDataFrame where
  geoms : List Pt
  crs : ℕ
deriving DecidableEq

/-- Model of the external to_crs call of cells 85 and 87, per its
documented semantics: normalize the argument, then build a new frame whose
geometries are the reprojections of the old ones into the target system;
the pointwise coordinate transform is the external projection library,
kept as the parameter project. -/
def to_crs (project : ℕ → ℕ → Pt → Pt) (g : GeoDataFrame) (a : CRSArg) :
    Option GeoDataFrame :=
  (normalize_crs a).map
    (fun c => GeoDataFrame.mk (g.geoms.map (project g.crs c)) c)

/-- One to_crs call as a cell executes it: the pair of the receiver frame
after the call and the returned value.  to_crs never mutates its receiver:
the frame it returns is a new object. -/
def to_crs_call (project : ℕ → ℕ → Pt → Pt) (g : GeoDataFrame) (a : CRSArg) :
    GeoDataFrame × Option GeoDataFrame :=
  (g, to_crs project g a)

/-- C9: a to_crs call leaves the receiver frame unchanged, the spellings
epsg:3857, 3857 and epsg=3857 return the same result, and the call returns
a new frame carrying the requested CRS. -/
theorem c9_to_crs_pure_and_spellings (project : ℕ → ℕ → Pt → Pt)
    (g : GeoDataFrame) (a : CRSArg) :
    (to_crs_call project g a).1 = g ∧
    to_crs project g (CRSArg.authString ("epsg:3857")) =
      to_crs project g (CRSArg.codeNum 3857) ∧
    to_crs project g (CRSArg.epsgKeyword 3857) =
      to_crs project g (CRSArg.codeNum 3857) ∧
    ∃ r, to_crs project g (CRSArg.codeNum 3857) = some r ∧ r.crs = 3857 := by
  have hn : normalize_crs (CRSArg.authString ("epsg:3857")) = some 3857 := by
    decide
  refine ⟨rfl, ?_, rfl, ?_⟩
  · simp only [to_crs, hn]
    rfl
  · exact ⟨GeoDataFrame.mk (g.geoms.map (project g.crs 3857)) 3857, rfl, rfl⟩

/-! ### C10: synchronous, single-threaded cell execution -/

/-- The thread, subprocess, or asynchronous-task creations appearing in the
notebook cells, as extracted from the source: there are none.  No cell
imports or calls threading, multiprocessing, subprocess, asyncio or
concurrent.futures; the imports are geopandas, numpy, pandas, shapely,
scipy, re, folium and libpysal, and every cell is a plain sequence of
calls. -/
def notebook_concurrency_primitives : List String := []

/-- Execution of a sequence of notebook cells in order: each cell runs its
library calls to completion on the session state, and the next cell starts
from the state the previous cell finished with — the semantics of a
synchronous single-threaded interactive kernel. -/
def runCells : List (List (σ → Except ε σ)) → σ → Except ε σ
  | [], s => Except.ok s
  | cell :: rest, s => Except.bind (runCalls cell s) (runCells rest)

/-- C10: the notebook creates no thread, subprocess or asynchronous task
(the extracted list of concurrency primitives is empty), and cell
execution is synchronous sequencing: when the cells run so far have
completed in state s2, the remaining cells run from exactly that completed
state, so the effects of each cell's library calls are complete before the
next cell runs. -/
theorem c10_synchronous_single_threaded
    (cs ds : List (List (σ → Except ε σ))) (s s2 : σ)
    (h : runCells cs s = Except.ok s2) :
    runCells (cs ++ ds) s = runCells ds s2 ∧
    notebook_concurrency_primitives = [] := by
  refine ⟨?_, rfl⟩
  induction cs generalizing s with
  | nil =>
    simp only [runCells] at h
    cases h
    rw [List.nil_append]
  | cons cell rest ih =>
    rw [runCells] at h
    rw [List.cons_append, runCells]
    cases hc : runCalls cell s with
    | ok s3 =>
      rw [hc] at h
      simp only [Except.bind] at h ⊢
      exact ih s3 h
    | error e =>
      rw [hc] at h
      simp only [Except.bind] at h
      cases h

/-- Concrete instantiation of the C10 sequencing statement: one completed
cell, then one further cell, on a numeric session state. -/
theorem c10_synchronous_single_threaded_witness :
    (runCells ([[fun n => Except.ok (n + 1)]] :
      List (List (ℕ → Except ℕ ℕ))) 0 = Except.ok 1) ∧
    (runCells (([[fun n => Except.ok (n + 1)]] :
        List (List (ℕ → Except ℕ ℕ))) ++ [[fun n => Except.ok (n * 2)]]) 0 =
      runCells [[fun n => Except.ok (n * 2)]] 1 ∧
     notebook_concurrency_primitives = []) :=
  ⟨rfl, c10_synchronous_single_threaded
    ([[fun n => Except.ok (n + 1)]] : List (List (ℕ → Except ℕ ℕ)))
    [[fun n => Except.ok (n * 2)]] 0 1 rfl⟩

end Workshop
